import Mathlib

/-!
# Verification of the lmdb-utils maintenance toolkit

Shallow embedding of the core subsystems of the `casper-network/lmdb-utils`
repository: the finality-signature reduction engine, the reachability copy
engine for the content-addressed trie store, the chain indexer and era weight
cache driving the signature purge, and the slice-extraction entry point.

Keyed stores (`BTreeMap`, LMDB sub-databases) are embedded as association
lists over `Nat` keys queried through `lookupD`; machine integers (`u64`,
`U512`) are embedded as `Nat` (all arithmetic involved is non-wrapping:
weights are summed and compared, never subtracted below zero).
-/

namespace LmdbUtils

/-- First-match lookup in an association list, the shallow embedding of
reads from a keyed store (`BTreeMap::get`, LMDB `get`). -/
def lookupD {β : Type} : List (Nat × β) → Nat → Option β
  | [], _ => none
  | (k, v) :: rest, d => if k = d then some v else lookupD rest d

@[simp]
theorem lookupD_nil {β : Type} (d : Nat) : lookupD ([] : List (Nat × β)) d = none := rfl

@[simp]
theorem lookupD_cons {β : Type} (k : Nat) (v : β) (rest : List (Nat × β)) (d : Nat) :
    lookupD ((k, v) :: rest) d = if k = d then some v else lookupD rest d := rfl

theorem lookupD_some_mem {β : Type} {l : List (Nat × β)} {k : Nat} {v : β}
    (h : lookupD l k = some v) : (k, v) ∈ l := by
  induction l with
  | nil => simp [lookupD] at h
  | cons p rest ih =>
    obtain ⟨k', v'⟩ := p
    rw [lookupD_cons] at h
    split at h
    · cases h
      subst_vars
      exact List.mem_cons_self _ _
    · exact List.mem_cons_of_mem _ (ih h)

/-- Update-or-insert in an association list, the shallow embedding of
`BTreeMap::insert` (replaces the value of an existing key). -/
def upsert {β : Type} : List (Nat × β) → Nat → β → List (Nat × β)
  | [], k, v => [(k, v)]
  | (k', v') :: rest, k, v =>
      if k' = k then (k, v) :: rest else (k', v') :: upsert rest k v

theorem lookupD_upsert {β : Type} (m : List (Nat × β)) (k : Nat) (v : β) (d : Nat) :
    lookupD (upsert m k v) d = if k = d then some v else lookupD m d := by
  induction m with
  | nil => simp [upsert, lookupD]
  | cons p rest ih =>
    obtain ⟨k', v'⟩ := p
    by_cases hk : k' = k
    · subst hk
      simp only [upsert, if_pos rfl, lookupD_cons]
      by_cases hd : k' = d <;> simp [hd]
    · simp only [upsert, if_neg hk, lookupD_cons, ih]
      by_cases hd : k' = d
      · subst hd
        have hk' : ¬ (k = k') := fun h => hk h.symm
        simp [hk']
      · simp [hd]

/-! ## Finality reduction engine (`strip_signatures`)

Modelled from the spec: the source file
`src/subcommands/purge_signatures/signatures.rs` holding `strip_signatures`
is not part of the provided sources (only its caller `purge.rs` and the tests
are), so the engine is embedded from the spec's §4.4 contract: thresholds by
integer multiplication (`weak` iff `3·signed > total`, `strict` iff
`3·signed > 2·total`), heaviest-first iteration with ties broken by a stable
total order on public keys, tentative removals committed only when the target
band is reached, all-or-nothing otherwise. Public keys are embedded as `Nat`,
signature values are irrelevant to the algorithm (only the key set is
inspected or changed), and a signature map is its list of signer keys. -/

/-- Weight of a public key in the era weight table; a signer absent from the
table contributes zero weight. -/
def weightOf (tw : List (Nat × Nat)) (k : Nat) : Nat :=
  (lookupD tw k).getD 0

/-- Sum of all weights in the era weight table (`total`). -/
def totalWeight (tw : List (Nat × Nat)) : Nat :=
  (tw.map Prod.snd).sum

/-- Signed weight of a list of signers: the sum of the weights of the signers,
with unknown signers contributing zero. -/
def signedWeight (sigs : List Nat) (tw : List (Nat × Nat)) : Nat :=
  (sigs.map (weightOf tw)).sum

@[simp]
theorem signedWeight_nil (tw : List (Nat × Nat)) : signedWeight [] tw = 0 := rfl

@[simp]
theorem signedWeight_cons (k : Nat) (sigs : List Nat) (tw : List (Nat × Nat)) :
    signedWeight (k :: sigs) tw = weightOf tw k + signedWeight sigs tw := rfl

/-- Heaviest-first order on signers: heavier weight first, ties broken by the
total order on the keys themselves. -/
def heavierFirst (tw : List (Nat × Nat)) (a b : Nat) : Prop :=
  weightOf tw b < weightOf tw a ∨ (weightOf tw a = weightOf tw b ∧ a ≤ b)

instance heavierFirstDecidable (tw : List (Nat × Nat)) : DecidableRel (heavierFirst tw) :=
  fun a b => by unfold heavierFirst; infer_instance

/-- Modelled from the spec: the greedy shedding loop of `strip_signatures`.
Walks the signers sorted heaviest first, carrying the current signed weight;
a signer is tentatively removed when removal keeps weak finality
(`3·prospective > total`), and as soon as the strict threshold is no longer
exceeded (`3·signed ≤ 2·total`) the tentative removals are returned; `none`
when the list is exhausted without reaching the band. Returns the removed
keys together with the final signed weight. -/
def shed (tw : List (Nat × Nat)) (total : Nat) :
    List Nat → Nat → Option (List Nat × Nat)
  | [], _ => none
  | k :: rest, signed =>
    let prospective := signed - weightOf tw k
    if total < 3 * prospective then
      if 3 * prospective ≤ 2 * total then
        some ([k], prospective)
      else
        (shed tw total rest prospective).map fun pr => (k :: pr.1, pr.2)
    else
      shed tw total rest signed

/-- Modelled from the spec: `strip_signatures`' core on the signer key list.
Returns the success flag together with the resulting signer list (unchanged
on failure: the reduction is all-or-nothing). -/
def strip (sigs : List Nat) (tw : List (Nat × Nat)) : Bool × List Nat :=
  let total := totalWeight tw
  let signed := signedWeight sigs tw
  if 3 * signed ≤ total then
    (false, sigs)
  else if 3 * signed ≤ 2 * total then
    (true, sigs)
  else
    let candidates :=
      List.insertionSort (heavierFirst tw) (sigs.filter fun k => (lookupD tw k).isSome)
    match shed tw total candidates signed with
    | some (removed, _) => (true, sigs.filter fun k => !(removed.contains k))
    | none => (false, sigs)

theorem shed_band {tw : List (Nat × Nat)} {total : Nat} :
    ∀ {pending : List Nat} {signed : Nat} {removed : List Nat} {finalSigned : Nat},
      shed tw total pending signed = some (removed, finalSigned) →
      total < 3 * finalSigned ∧ 3 * finalSigned ≤ 2 * total := by
  intro pending
  induction pending with
  | nil => intro signed removed finalSigned h; simp [shed] at h
  | cons k rest ih =>
    intro signed removed finalSigned h
    simp only [shed] at h
    split at h
    · split at h
      · cases h
        constructor <;> assumption
      · obtain ⟨⟨removed', finalSigned'⟩, heq, hmap⟩ := Option.map_eq_some'.mp h
        cases hmap
        exact ih heq
    · exact ih h

theorem shed_removed {tw : List (Nat × Nat)} {total : Nat} :
    ∀ {pending : List Nat} {signed : Nat} {removed : List Nat} {finalSigned : Nat},
      pending.Nodup →
      signedWeight pending tw ≤ signed →
      shed tw total pending signed = some (removed, finalSigned) →
      removed ⊆ pending ∧ removed.Nodup ∧
        finalSigned + signedWeight removed tw = signed := by
  intro pending
  induction pending with
  | nil => intro signed removed finalSigned _ _ h; simp [shed] at h
  | cons k rest ih =>
    intro signed removed finalSigned hnd hle h
    have hw : weightOf tw k + signedWeight rest tw ≤ signed := by
      simpa [signedWeight] using hle
    simp only [shed] at h
    split at h
    · split at h
      · cases h
        refine ⟨?_, List.nodup_singleton k, ?_⟩
        · intro x hx
          simp only [List.mem_singleton] at hx
          exact hx ▸ List.mem_cons_self _ _
        · simp only [signedWeight_cons, signedWeight_nil]
          omega
      · obtain ⟨⟨removed', finalSigned'⟩, heq, hmap⟩ := Option.map_eq_some'.mp h
        cases hmap
        have hrest : signedWeight rest tw ≤ signed - weightOf tw k := by omega
        obtain ⟨hsub, hnd', hsum⟩ := ih (List.Nodup.of_cons hnd) hrest heq
        refine ⟨?_, ?_, ?_⟩
        · intro x hx
          rcases List.mem_cons.mp hx with h | h
          · exact h ▸ List.mem_cons_self _ _
          · exact List.mem_cons_of_mem _ (hsub h)
        · refine List.nodup_cons.mpr ⟨fun hk => ?_, hnd'⟩
          exact (List.nodup_cons.mp hnd).1 (hsub hk)
        · simp only [signedWeight_cons]
          omega
    · have hrest : signedWeight rest tw ≤ signed := by omega
      obtain ⟨hsub, hnd', hsum⟩ := ih (List.Nodup.of_cons hnd) hrest h
      exact ⟨fun x hx => List.mem_cons_of_mem _ (hsub hx), hnd', hsum⟩

end LmdbUtils

namespace LmdbUtils

theorem signedWeight_perm {l₁ l₂ : List Nat} (tw : List (Nat × Nat)) (h : List.Perm l₁ l₂) :
    signedWeight l₁ tw = signedWeight l₂ tw :=
  (h.map (weightOf tw)).sum_eq

theorem signedWeight_filter_le (sigs : List Nat) (tw : List (Nat × Nat)) (p : Nat → Bool) :
    signedWeight (sigs.filter p) tw ≤ signedWeight sigs tw := by
  induction sigs with
  | nil => simp
  | cons k rest ih =>
    by_cases hp : p k = true <;> simp [List.filter_cons, hp] <;> omega

theorem signedWeight_filter_split (sigs : List Nat) (tw : List (Nat × Nat)) (p : Nat → Bool) :
    signedWeight (sigs.filter p) tw + signedWeight (sigs.filter fun k => !(p k)) tw
      = signedWeight sigs tw := by
  induction sigs with
  | nil => simp
  | cons k rest ih =>
    by_cases hp : p k = true <;> simp [List.filter_cons, hp] <;> omega

/-- **C2**. Whenever `strip` returns `true`, the signed weight of the remaining
signers (unknown signers weighing zero) lies in the target band:
`3·signed > total` and `3·signed ≤ 2·total`, where `total` is the sum of all
weights in the table. -/
theorem strip_true_band (sigs : List Nat) (tw : List (Nat × Nat)) (out : List Nat)
    (hnd : sigs.Nodup) (h : strip sigs tw = (true, out)) :
    totalWeight tw < 3 * signedWeight out tw ∧
      3 * signedWeight out tw ≤ 2 * totalWeight tw := by
  simp only [strip] at h
  split at h
  · cases h
  · split at h
    · rename_i h1 h2
      cases h
      constructor <;> omega
    · rename_i h1 h2
      split at h
      case h_2 => cases h
      case h_1 removed fs heq =>
        cases h
        have hperm : List.Perm
            (List.insertionSort (heavierFirst tw) (sigs.filter fun k => (lookupD tw k).isSome))
            (sigs.filter fun k => (lookupD tw k).isSome) :=
          List.perm_insertionSort _ _
        have hcnd : (List.insertionSort (heavierFirst tw)
            (sigs.filter fun k => (lookupD tw k).isSome)).Nodup :=
          hperm.nodup_iff.mpr (hnd.filter _)
        have hcle : signedWeight
            (List.insertionSort (heavierFirst tw) (sigs.filter fun k => (lookupD tw k).isSome)) tw
              ≤ signedWeight sigs tw := by
          rw [signedWeight_perm tw hperm]
          exact signedWeight_filter_le sigs tw _
        have hband := shed_band heq
        obtain ⟨hsub, hrnd, hsum⟩ := shed_removed hcnd hcle heq
        have hsub' : ∀ x ∈ removed, x ∈ sigs := by
          intro x hx
          exact List.mem_of_mem_filter (hperm.mem_iff.mp (hsub hx))
        have hpermr : List.Perm (sigs.filter fun k => removed.contains k) removed := by
          refine (List.perm_ext_iff_of_nodup (hnd.filter _) hrnd).mpr ?_
          intro a
          simp only [List.mem_filter, List.elem_eq_mem, decide_eq_true_eq]
          exact ⟨fun ha => ha.2, fun ha => ⟨hsub' a ha, ha⟩⟩
        have hsplit := signedWeight_filter_split sigs tw (fun k => removed.contains k)
        rw [signedWeight_perm tw hpermr] at hsplit
        constructor <;> omega

/-- Concrete instantiation of the band property on the fixture used by the
tests: weights `{300, 300, 400}`, signers `{A, B}` remaining. -/
theorem strip_true_band_witness :
    totalWeight [(0, 300), (1, 300), (2, 400)]
        < 3 * signedWeight [0, 1] [(0, 300), (1, 300), (2, 400)] ∧
      3 * signedWeight [0, 1] [(0, 300), (1, 300), (2, 400)]
        ≤ 2 * totalWeight [(0, 300), (1, 300), (2, 400)] :=
  strip_true_band [0, 1, 2] [(0, 300), (1, 300), (2, 400)] [0, 1] (by decide) (by decide)

end LmdbUtils

namespace LmdbUtils

/-- **C3**. `strip` implements the heaviest-first greedy reduction: for
weights `{A:500, B:500}` and signers `{A, B}` it returns `true` with exactly
one signer (of weight 500) remaining; for weights `{A:300, B:300, C:400}` and
signers `{A, B, C}` it returns `true` with exactly `{A, B}` remaining (the
heaviest signer `C` is removed, reaching signed weight 600). -/
theorem strip_heaviest_first_examples :
    strip [0, 1] [(0, 500), (1, 500)] = (true, [1]) ∧
      (strip [0, 1] [(0, 500), (1, 500)]).2.length = 1 ∧
      signedWeight (strip [0, 1] [(0, 500), (1, 500)]).2 [(0, 500), (1, 500)] = 500 ∧
      strip [0, 1, 2] [(0, 300), (1, 300), (2, 400)] = (true, [0, 1]) ∧
      signedWeight (strip [0, 1, 2] [(0, 300), (1, 300), (2, 400)]).2
        [(0, 300), (1, 300), (2, 400)] = 600 := by
  decide

/-- **C4**. Whenever `strip` returns `false` the signer set is returned
exactly unchanged (the reduction is all-or-nothing); in particular for
weights `{A:700, B:300}` and signers `{A, B}` it returns `false` and both
signers remain. -/
theorem strip_false_all_or_nothing :
    (∀ (sigs : List Nat) (tw : List (Nat × Nat)) (res : List Nat),
        strip sigs tw = (false, res) → res = sigs) ∧
      strip [0, 1] [(0, 700), (1, 300)] = (false, [0, 1]) := by
  constructor
  · intro sigs tw res h
    simp only [strip] at h
    split at h
    · cases h; rfl
    · split at h
      · cases h
      · split at h
        case h_1 => cases h
        case h_2 => cases h; rfl
  · decide

/-- Concrete instantiation of the all-or-nothing law at the `{700, 300}`
fixture. -/
theorem strip_false_all_or_nothing_witness :
    ([0, 1] : List Nat) = [0, 1] :=
  strip_false_all_or_nothing.1 [0, 1] [(0, 700), (1, 300)] [0, 1]
    strip_false_all_or_nothing.2

end LmdbUtils

namespace LmdbUtils

/-! ## Reachability copy engine (`copy_state_root`)

Modelled from the spec: the module holding `copy_state_root` under
`src/subcommands/trie_compact/` is not part of the provided sources (only its
callers `extract_slice/global_state.rs`, the fixture-building tests and
`utils.rs` are), so the engine is embedded from the spec's §4.1 contract:
a work-list of digests plus a `seen` set bounded to the call; a popped digest
already present in the destination is treated as already copied and not
re-descended; otherwise the node is read from the source (hard failure
`MissingTrieNode` if absent), its children not yet seen are enqueued, and the
node is written to the destination. Digests are embedded as `Nat` (content
addressing is opaque to the algorithm), trie nodes follow the data model's
`Leaf`/`Extension`/`Branch` shape, and both stores are association lists.
The loop is driven by a fuel counter large enough (`copyFuel`, proved below)
that the budget is never exhausted, making the embedding executable. -/

/-- A pointer inside a trie node: kind (leaf or node) plus target digest. -/
inductive Pointer where
  | leafPointer (digest : Nat)
  | nodePointer (digest : Nat)
deriving DecidableEq

/-- The digest a pointer refers to. -/
def Pointer.digest : Pointer → Nat
  | .leafPointer d => d
  | .nodePointer d => d

/-- A trie node: leaf with key and value bytes, extension with affix and one
pointer, or branch with a block of optional pointers indexed by path byte. -/
inductive TrieNode where
  | leaf (key value : List Nat)
  | extension (affix : List Nat) (pointer : Pointer)
  | node (pointerBlock : List (Option Pointer))
deriving DecidableEq

/-- The digests of all child pointers of a trie node. -/
def childDigests : TrieNode → List Nat
  | .leaf _ _ => []
  | .extension _ p => [p.digest]
  | .node pb => (pb.filterMap id).map Pointer.digest

inductive CopyError where
  | missingTrieNode (digest : Nat)
  | interrupted
deriving DecidableEq

/-- Weight of the still-to-copy part of the source: each source entry absent
from the destination contributes 2 plus its child count.  Every loop
iteration strictly decreases `storeMissingWeight + worklist length`, so this
bounds the number of iterations. -/
def storeMissingWeight (source dest : List (Nat × TrieNode)) : Nat :=
  ((source.filter fun p => (lookupD dest p.1).isNone).map
      fun p => 2 + (childDigests p.2).length).sum

/-- Modelled from the spec: the work-list walk of the copy engine.  `fuel`
bounds the number of iterations; the wrapper `copy_state_root` supplies
enough fuel that `.interrupted` is unreachable (`copy_state_root_total`). -/
def copyLoop (source : List (Nat × TrieNode)) :
    Nat → List Nat → List Nat → List (Nat × TrieNode) →
      Except CopyError (List (Nat × TrieNode))
  | _, [], _, dest => .ok dest
  | 0, _ :: _, _, _ => .error .interrupted
  | fuel + 1, d :: rest, seen, dest =>
    if (lookupD dest d).isSome then
      copyLoop source fuel rest seen dest
    else
      match lookupD source d with
      | none => .error (.missingTrieNode d)
      | some t =>
        let newChildren := (childDigests t).filter fun c => !(seen.contains c)
        copyLoop source fuel (newChildren ++ rest) (newChildren ++ seen) ((d, t) :: dest)

/-- Modelled from the spec: `copy_state_root(root, source, destination)` —
walk the DAG from `root` and copy its transitive closure into `destination`,
deduplicating against content already present there. -/
def copy_state_root (root : Nat) (source destination : List (Nat × TrieNode)) :
    Except CopyError (List (Nat × TrieNode)) :=
  copyLoop source (storeMissingWeight source destination + 2) [root] [root] destination

/-- Reachability in the source store: the transitive closure of a root digest
through `Extension`/`Branch` child pointers. -/
inductive Reachable (source : List (Nat × TrieNode)) (root : Nat) : Nat → Prop
  | refl : Reachable source root root
  | step {d c : Nat} {t : TrieNode} :
      Reachable source root d → lookupD source d = some t →
      c ∈ childDigests t → Reachable source root c

/-- Closure invariant of a well-formed store: every child digest of every
stored node is itself present.  Quantified over the entries of the list so
that it is decidable on concrete stores. -/
def WellFormedStore (source : List (Nat × TrieNode)) : Prop :=
  ∀ p ∈ source, ∀ c ∈ childDigests p.2, (lookupD source c).isSome

instance (source : List (Nat × TrieNode)) : Decidable (WellFormedStore source) := by
  unfold WellFormedStore; infer_instance

theorem reachable_present {source : List (Nat × TrieNode)} {root : Nat}
    (hwf : WellFormedStore source) (hroot : (lookupD source root).isSome) :
    ∀ {d : Nat}, Reachable source root d → (lookupD source d).isSome := by
  intro d h
  induction h with
  | refl => exact hroot
  | step _ hlook hc ih =>
    exact hwf _ (lookupD_some_mem hlook) _ hc

end LmdbUtils

namespace LmdbUtils

theorem copyLoop_preserves (source : List (Nat × TrieNode)) :
    ∀ (fuel : Nat) (wl seen : List Nat) (dest res : List (Nat × TrieNode)),
      copyLoop source fuel wl seen dest = .ok res →
      ∀ k, (lookupD dest k).isSome → lookupD res k = lookupD dest k := by
  intro fuel
  induction fuel with
  | zero =>
    intro wl seen dest res h k hk
    cases wl with
    | nil => cases h; rfl
    | cons d rest => exact absurd h (by simp [copyLoop])
  | succ fuel ih =>
    intro wl seen dest res h k hk
    cases wl with
    | nil => cases h; rfl
    | cons d rest =>
      simp only [copyLoop] at h
      split at h
      · exact ih rest seen dest res h k hk
      · rename_i hds
        split at h
        · cases h
        · rename_i t hsrc
          have hne : d ≠ k := by
            intro he
            subst he
            exact hds (by simpa using hk)
          have hk' : (lookupD ((d, t) :: dest) k).isSome := by
            simpa [lookupD_cons, hne] using hk
          have := ih _ _ _ _ h k hk'
          rw [this]
          simp [lookupD_cons, hne]

theorem copyLoop_from_source (source : List (Nat × TrieNode)) :
    ∀ (fuel : Nat) (wl seen : List Nat) (dest res : List (Nat × TrieNode)),
      copyLoop source fuel wl seen dest = .ok res →
      ∀ k v, lookupD res k = some v →
        lookupD dest k = some v ∨ lookupD source k = some v := by
  intro fuel
  induction fuel with
  | zero =>
    intro wl seen dest res h k v hk
    cases wl with
    | nil => cases h; exact Or.inl hk
    | cons d rest => exact absurd h (by simp [copyLoop])
  | succ fuel ih =>
    intro wl seen dest res h k v hk
    cases wl with
    | nil => cases h; exact Or.inl hk
    | cons d rest =>
      simp only [copyLoop] at h
      split at h
      · exact ih rest seen dest res h k v hk
      · split at h
        · cases h
        · rename_i t hsrc
          rcases ih _ _ _ _ h k v hk with hin | hin
          · rw [lookupD_cons] at hin
            by_cases hdk : d = k
            · subst hdk
              simp only [if_pos rfl] at hin
              cases hin
              exact Or.inr hsrc
            · simp only [if_neg hdk] at hin
              exact Or.inl hin
          · exact Or.inr hin

theorem copyLoop_sound (source : List (Nat × TrieNode)) (R : Nat → Prop)
    (hclosed : ∀ d t c, R d → lookupD source d = some t → c ∈ childDigests t → R c) :
    ∀ (fuel : Nat) (wl seen : List Nat) (dest res : List (Nat × TrieNode)),
      (∀ x ∈ wl, R x) →
      copyLoop source fuel wl seen dest = .ok res →
      ∀ k, (lookupD res k).isSome → R k ∨ (lookupD dest k).isSome := by
  intro fuel
  induction fuel with
  | zero =>
    intro wl seen dest res hwl h k hk
    cases wl with
    | nil => cases h; exact Or.inr hk
    | cons d rest => exact absurd h (by simp [copyLoop])
  | succ fuel ih =>
    intro wl seen dest res hwl h k hk
    cases wl with
    | nil => cases h; exact Or.inr hk
    | cons d rest =>
      simp only [copyLoop] at h
      split at h
      · exact ih rest seen dest res (fun x hx => hwl x (List.mem_cons_of_mem _ hx)) h k hk
      · split at h
        · cases h
        · rename_i t hsrc
          have hRd : R d := hwl d (List.mem_cons_self _ _)
          have hwl' : ∀ x ∈ ((childDigests t).filter fun c => !(seen.contains c)) ++ rest, R x := by
            intro x hx
            rcases List.mem_append.mp hx with hx | hx
            · exact hclosed d t x hRd hsrc (List.mem_of_mem_filter hx)
            · exact hwl x (List.mem_cons_of_mem _ hx)
          rcases ih _ _ _ _ hwl' h k hk with hin | hin
          · exact Or.inl hin
          · rw [lookupD_cons] at hin
            by_cases hdk : d = k
            · exact Or.inl (hdk ▸ hRd)
            · simp only [if_neg hdk] at hin
              exact Or.inr hin

end LmdbUtils

namespace LmdbUtils

theorem copyLoop_seen_in_result (source : List (Nat × TrieNode)) :
    ∀ (fuel : Nat) (wl seen : List Nat) (dest res : List (Nat × TrieNode)),
      (∀ x ∈ wl, x ∈ seen) →
      (∀ x ∈ seen, x ∈ wl ∨ (lookupD dest x).isSome) →
      copyLoop source fuel wl seen dest = .ok res →
      ∀ x ∈ seen, (lookupD res x).isSome := by
  intro fuel
  induction fuel with
  | zero =>
    intro wl seen dest res h1 h2 h x hx
    cases wl with
    | nil =>
      cases h
      rcases h2 x hx with h | h
      · simp at h
      · exact h
    | cons d rest => exact absurd h (by simp [copyLoop])
  | succ fuel ih =>
    intro wl seen dest res h1 h2 h x hx
    cases wl with
    | nil =>
      cases h
      rcases h2 x hx with h | h
      · simp at h
      · exact h
    | cons d rest =>
      simp only [copyLoop] at h
      split at h
      · rename_i hds
        refine ih rest seen dest res (fun y hy => h1 y (List.mem_cons_of_mem _ hy)) ?_ h x hx
        intro y hy
        rcases h2 y hy with hmem | hmem
        · rcases List.mem_cons.mp hmem with hyd | hyd
          · exact Or.inr (hyd ▸ (by simpa using hds))
          · exact Or.inl hyd
        · exact Or.inr hmem
      · rename_i hds
        split at h
        · cases h
        · rename_i t hsrc
          have hsub : seen ⊆ ((childDigests t).filter fun c => !(seen.contains c)) ++ seen :=
            fun y hy => List.mem_append.mpr (Or.inr hy)
          refine ih _ _ _ _ ?_ ?_ h x (hsub hx)
          · intro y hy
            rcases List.mem_append.mp hy with hy | hy
            · exact List.mem_append.mpr (Or.inl hy)
            · exact hsub (h1 y (List.mem_cons_of_mem _ hy))
          · intro y hy
            rcases List.mem_append.mp hy with hy | hy
            · exact Or.inl (List.mem_append.mpr (Or.inl hy))
            · rcases h2 y hy with hmem | hmem
              · rcases List.mem_cons.mp hmem with hyd | hyd
                · subst hyd
                  exact Or.inr (by simp [lookupD_cons])
                · exact Or.inl (List.mem_append.mpr (Or.inr hyd))
              · refine Or.inr ?_
                rw [lookupD_cons]
                split
                · simp
                · exact hmem

theorem copyLoop_closure (source : List (Nat × TrieNode)) :
    ∀ (fuel : Nat) (wl seen : List Nat) (dest res : List (Nat × TrieNode)),
      (∀ x ∈ wl, x ∈ seen) →
      (∀ x ∈ seen, x ∈ wl ∨ (lookupD dest x).isSome) →
      (∀ d t, lookupD dest d = some t → ∀ c ∈ childDigests t, c ∈ seen) →
      copyLoop source fuel wl seen dest = .ok res →
      ∀ d t, lookupD res d = some t → ∀ c ∈ childDigests t, (lookupD res c).isSome := by
  intro fuel
  induction fuel with
  | zero =>
    intro wl seen dest res h1 h2 h3 h d t hd c hc
    cases wl with
    | nil =>
      cases h
      rcases h2 c (h3 d t hd c hc) with hm | hm
      · simp at hm
      · exact hm
    | cons d' rest => exact absurd h (by simp [copyLoop])
  | succ fuel ih =>
    intro wl seen dest res h1 h2 h3 h d t hd c hc
    cases wl with
    | nil =>
      cases h
      rcases h2 c (h3 d t hd c hc) with hm | hm
      · simp at hm
      · exact hm
    | cons d' rest =>
      simp only [copyLoop] at h
      split at h
      · rename_i hds
        refine ih rest seen dest res (fun y hy => h1 y (List.mem_cons_of_mem _ hy)) ?_ h3 h d t hd c hc
        intro y hy
        rcases h2 y hy with hmem | hmem
        · rcases List.mem_cons.mp hmem with hyd | hyd
          · exact Or.inr (hyd ▸ (by simpa using hds))
          · exact Or.inl hyd
        · exact Or.inr hmem
      · rename_i hds
        split at h
        · cases h
        · rename_i t' hsrc
          have hsub : seen ⊆ ((childDigests t').filter fun c => !(seen.contains c)) ++ seen :=
            fun y hy => List.mem_append.mpr (Or.inr hy)
          refine ih _ _ _ _ ?_ ?_ ?_ h d t hd c hc
          · intro y hy
            rcases List.mem_append.mp hy with hy | hy
            · exact List.mem_append.mpr (Or.inl hy)
            · exact hsub (h1 y (List.mem_cons_of_mem _ hy))
          · intro y hy
            rcases List.mem_append.mp hy with hy | hy
            · exact Or.inl (List.mem_append.mpr (Or.inl hy))
            · rcases h2 y hy with hmem | hmem
              · rcases List.mem_cons.mp hmem with hyd | hyd
                · subst hyd
                  exact Or.inr (by simp [lookupD_cons])
                · exact Or.inl (List.mem_append.mpr (Or.inr hyd))
              · refine Or.inr ?_
                rw [lookupD_cons]
                split
                · simp
                · exact hmem
          · intro e te he ce hce
            rw [lookupD_cons] at he
            split at he
            · rename_i hde
              cases he
              by_cases hcs : ce ∈ seen
              · exact hsub hcs
              · refine List.mem_append.mpr (Or.inl ?_)
                refine List.mem_filter.mpr ⟨hce, ?_⟩
                simpa using hcs
            · exact hsub (h3 e te he ce hce)

end LmdbUtils

namespace LmdbUtils

theorem storeMissingWeight_cons (p : Nat × TrieNode) (src' dest : List (Nat × TrieNode)) :
    storeMissingWeight (p :: src') dest =
      (if (lookupD dest p.1).isNone then 2 + (childDigests p.2).length else 0)
        + storeMissingWeight src' dest := by
  simp only [storeMissingWeight, List.filter_cons]
  split
  · simp
  · simp

theorem storeMissingWeight_insert_mono (d : Nat) (t : TrieNode) :
    ∀ (source dest : List (Nat × TrieNode)),
      storeMissingWeight source ((d, t) :: dest) ≤ storeMissingWeight source dest := by
  intro source dest
  induction source with
  | nil => simp [storeMissingWeight]
  | cons p src' ih =>
    rw [storeMissingWeight_cons, storeMissingWeight_cons]
    have hmono : (lookupD ((d, t) :: dest) p.1).isNone = true →
        (lookupD dest p.1).isNone = true := by
      rw [lookupD_cons]
      split
      · simp
      · exact id
    by_cases hnew : (lookupD ((d, t) :: dest) p.1).isNone = true
    · rw [if_pos hnew, if_pos (hmono hnew)]
      omega
    · rw [if_neg hnew]
      split <;> omega

theorem storeMissingWeight_insert_le {d : Nat} {t : TrieNode} :
    ∀ {source : List (Nat × TrieNode)} {dest : List (Nat × TrieNode)},
      lookupD source d = some t → lookupD dest d = none →
      storeMissingWeight source ((d, t) :: dest) + (2 + (childDigests t).length)
        ≤ storeMissingWeight source dest := by
  intro source
  induction source with
  | nil => intro dest hs _; simp [lookupD] at hs
  | cons p src' ih =>
    intro dest hs hd
    obtain ⟨k, v⟩ := p
    rw [lookupD_cons] at hs
    rw [storeMissingWeight_cons, storeMissingWeight_cons]
    by_cases hkd : k = d
    · subst hkd
      simp only [if_pos rfl] at hs
      cases hs
      have h1 : (lookupD dest (k, t).1).isNone = true := by simp [hd]
      have h2 : ¬ (lookupD ((k, t) :: dest) (k, t).1).isNone = true := by
        simp [lookupD_cons]
      rw [if_pos h1, if_neg h2]
      have := storeMissingWeight_insert_mono k t src' dest
      simp only
      omega
    · simp only [if_neg hkd] at hs
      have hsame : lookupD ((d, t) :: dest) (k, v).1 = lookupD dest (k, v).1 := by
        simp only [lookupD_cons]
        rw [if_neg (fun h => hkd h.symm)]
      rw [hsame]
      have := ih hs hd
      split <;> omega

theorem copyLoop_success (source : List (Nat × TrieNode)) (R : Nat → Prop)
    (hclosed : ∀ d t c, R d → lookupD source d = some t → c ∈ childDigests t → R c)
    (hpresent : ∀ x, R x → (lookupD source x).isSome) :
    ∀ (fuel : Nat) (wl seen : List Nat) (dest : List (Nat × TrieNode)),
      storeMissingWeight source dest + wl.length < fuel →
      (∀ x ∈ wl, R x) →
      ∃ res, copyLoop source fuel wl seen dest = .ok res := by
  intro fuel
  induction fuel with
  | zero =>
    intro wl seen dest hfuel hwl
    omega
  | succ fuel ih =>
    intro wl seen dest hfuel hwl
    cases wl with
    | nil => exact ⟨dest, rfl⟩
    | cons d rest =>
      simp only [copyLoop]
      split
      · refine ih rest seen dest ?_ (fun x hx => hwl x (List.mem_cons_of_mem _ hx))
        simp only [List.length_cons] at hfuel
        omega
      · rename_i hds
        have hd : (lookupD source d).isSome := hpresent d (hwl d (List.mem_cons_self _ _))
        obtain ⟨t, ht⟩ := Option.isSome_iff_exists.mp hd
        rw [ht]
        have hdn : lookupD dest d = none := by
          rcases Option.eq_none_or_eq_some (lookupD dest d) with h | ⟨v, h⟩
          · exact h
          · exact absurd (by simp [h]) hds
        have hle := storeMissingWeight_insert_le ht hdn
        have hfl : ((childDigests t).filter fun c => !(seen.contains c)).length
            ≤ (childDigests t).length := List.length_filter_le _ _
        refine ih _ _ _ ?_ ?_
        · simp only [List.length_append, List.length_cons] at hfuel ⊢
          omega
        · intro x hx
          rcases List.mem_append.mp hx with hx | hx
          · exact hclosed d t x (hwl d (List.mem_cons_self _ _)) ht (List.mem_of_mem_filter hx)
          · exact hwl x (List.mem_cons_of_mem _ hx)

end LmdbUtils

namespace LmdbUtils

/-- Fixture leaf `leaf_1` from the trie-compact tests (key `[0,0,0]`,
value `"val_1"`). -/
def leafOne : TrieNode := .leaf [0, 0, 0] [118, 97, 108, 95, 49]

/-- Fixture leaf `leaf_2` (key `[1,0,0]`, value `"val_2"`). -/
def leafTwo : TrieNode := .leaf [1, 0, 0] [118, 97, 108, 95, 50]

/-- Fixture leaf `leaf_3` (key `[1,0,1]`, value `"val_3"`). -/
def leafThree : TrieNode := .leaf [1, 0, 1] [118, 97, 108, 95, 51]

/-- Fixture branch `node_2`: slots 0 and 1 point to `leaf_2` and `leaf_3`. -/
def nodeTwo : TrieNode :=
  .node (some (.leafPointer 2) :: some (.leafPointer 3) :: List.replicate 254 none)

/-- Fixture extension `ext_node`: affix `[1,0]`, pointing to `node_2`. -/
def extNode : TrieNode := .extension [1, 0] (.nodePointer 5)

/-- Fixture branch `node_1`: slots 0 and 1 point to `leaf_1` and `ext_node`. -/
def nodeOne : TrieNode :=
  .node (some (.leafPointer 1) :: some (.nodePointer 6) :: List.replicate 254 none)

/-- The 6-node fixture trie store of the trie-compact tests, with abstract
digests 1..6 standing for the content hashes of the six nodes. -/
def fixtureStore : List (Nat × TrieNode) :=
  [(1, leafOne), (2, leafTwo), (3, leafThree), (4, nodeOne), (5, nodeTwo), (6, extNode)]

/-- **C1**. For every well-formed source store and digest `root` present in
it, `copy_state_root` into an initially empty destination succeeds and the
destination contains exactly the transitive closure of `root`, each node
byte-identical to its source copy, with no digest outside the closure; in
particular, copying the fixture trie from `node_2`'s digest yields a
destination holding exactly `{leaf_2, leaf_3, node_2}`, with the other three
digests absent. -/
theorem copy_exact_closure :
    (∀ (source : List (Nat × TrieNode)) (root : Nat),
        WellFormedStore source → (lookupD source root).isSome →
        ∃ dest, copy_state_root root source [] = .ok dest ∧
          (∀ d, (lookupD dest d).isSome ↔ Reachable source root d) ∧
          (∀ d, Reachable source root d → lookupD dest d = lookupD source d)) ∧
      (∀ dest, copy_state_root 5 fixtureStore [] = .ok dest →
        lookupD dest 2 = some leafTwo ∧ lookupD dest 3 = some leafThree ∧
          lookupD dest 5 = some nodeTwo ∧ lookupD dest 1 = none ∧
          lookupD dest 4 = none ∧ lookupD dest 6 = none ∧
          ∀ d, (lookupD dest d).isSome → d = 2 ∨ d = 3 ∨ d = 5) := by
  constructor
  · intro source root hwf hroot
    have hclosed : ∀ d t c, Reachable source root d → lookupD source d = some t →
        c ∈ childDigests t → Reachable source root c :=
      fun _ _ _ hR hs hc => Reachable.step hR hs hc
    have hpresent : ∀ x, Reachable source root x → (lookupD source x).isSome :=
      fun _ hx => reachable_present hwf hroot hx
    have hwlR : ∀ x ∈ [root], Reachable source root x := by
      intro x hx
      rw [List.mem_singleton] at hx
      exact hx ▸ Reachable.refl
    obtain ⟨res, hres⟩ := copyLoop_success source (Reachable source root) hclosed hpresent
      (storeMissingWeight source [] + 2) [root] [root] []
      (by simp) hwlR
    refine ⟨res, hres, ?_, ?_⟩
    · have hseen := copyLoop_seen_in_result source _ _ _ _ _
        (fun x hx => hx) (fun x hx => Or.inl hx) hres
      have hclos := copyLoop_closure source _ _ _ _ _
        (fun x hx => hx) (fun x hx => Or.inl hx) (by simp) hres
      have hcompl : ∀ d, Reachable source root d → (lookupD res d).isSome := by
        intro d hd
        induction hd with
        | refl => exact hseen root (List.mem_singleton.mpr rfl)
        | step hR hlook hc ih =>
          obtain ⟨v, hv⟩ := Option.isSome_iff_exists.mp ih
          rcases copyLoop_from_source source _ _ _ _ _ hres _ _ hv with hin | hin
          · simp at hin
          · rw [hin] at hlook
            cases hlook
            exact hclos _ _ hv _ hc
      intro d
      constructor
      · intro hd
        rcases copyLoop_sound source (Reachable source root) hclosed _ _ _ _ _ hwlR hres d hd
          with h | h
        · exact h
        · simp at h
      · exact hcompl d
    · intro d hd
      have hsome : (lookupD res d).isSome := by
        have hseen := copyLoop_seen_in_result source _ _ _ _ _
          (fun x hx => hx) (fun x hx => Or.inl hx) hres
        have hclos := copyLoop_closure source _ _ _ _ _
          (fun x hx => hx) (fun x hx => Or.inl hx) (by simp) hres
        induction hd with
        | refl => exact hseen root (List.mem_singleton.mpr rfl)
        | step hR hlook hc ih =>
          obtain ⟨v, hv⟩ := Option.isSome_iff_exists.mp ih
          rcases copyLoop_from_source source _ _ _ _ _ hres _ _ hv with hin | hin
          · simp at hin
          · rw [hin] at hlook
            cases hlook
            exact hclos _ _ hv _ hc
      obtain ⟨v, hv⟩ := Option.isSome_iff_exists.mp hsome
      rcases copyLoop_from_source source _ _ _ _ _ hres _ _ hv with hin | hin
      · simp at hin
      · rw [hv, hin]
  · intro dest h
    have hcomp : copy_state_root 5 fixtureStore [] =
        .ok [(3, leafThree), (2, leafTwo), (5, nodeTwo)] := by
      set_option maxRecDepth 4000 in rfl
    rw [hcomp] at h
    cases h
    refine ⟨rfl, rfl, rfl, rfl, rfl, rfl, ?_⟩
    intro d hd
    obtain ⟨v, hv⟩ := Option.isSome_iff_exists.mp hd
    have hmem := lookupD_some_mem hv
    simp only [List.mem_cons, List.not_mem_nil, or_false, Prod.mk.injEq] at hmem
    rcases hmem with ⟨h1, _⟩ | ⟨h1, _⟩ | ⟨h1, _⟩ <;> omega

/-- Concrete instantiation of the exact-closure theorem at the fixture trie
rooted at `node_2`. -/
theorem copy_exact_closure_witness :
    ∃ dest, copy_state_root 5 fixtureStore [] = .ok dest ∧
      (∀ d, (lookupD dest d).isSome ↔ Reachable fixtureStore 5 d) ∧
      (∀ d, Reachable fixtureStore 5 d → lookupD dest d = lookupD fixtureStore d) :=
  copy_exact_closure.1 fixtureStore 5 (by decide) (by decide)

/-- **C7**. Calling `copy_state_root` a second time with the same root after
a first successful call succeeds and returns the destination unchanged: the
root is already present, so the dedup rule skips its whole subtree. -/
theorem copy_idempotent (source : List (Nat × TrieNode)) (root : Nat)
    (dest₀ d1 : List (Nat × TrieNode))
    (h : copy_state_root root source dest₀ = .ok d1) :
    copy_state_root root source d1 = .ok d1 := by
  have hroot : (lookupD d1 root).isSome :=
    copyLoop_seen_in_result source _ _ _ _ _
      (fun x hx => hx) (fun x hx => Or.inl hx) h root (List.mem_singleton.mpr rfl)
  show copyLoop source (storeMissingWeight source d1 + 2) [root] [root] d1 = .ok d1
  have h2 : storeMissingWeight source d1 + 2 = (storeMissingWeight source d1 + 1) + 1 := rfl
  rw [h2]
  simp only [copyLoop]
  split
  · rfl
  · rename_i hcontra
    exact absurd hroot hcontra

/-- Concrete instantiation of idempotence: re-copying `node_2`'s closure over
the destination produced by the first call changes nothing. -/
theorem copy_idempotent_witness :
    copy_state_root 5 fixtureStore [(3, leafThree), (2, leafTwo), (5, nodeTwo)] =
      .ok [(3, leafThree), (2, leafTwo), (5, nodeTwo)] :=
  copy_idempotent fixtureStore 5 [] [(3, leafThree), (2, leafTwo), (5, nodeTwo)] (by rfl)

end LmdbUtils

namespace LmdbUtils

/-! ## Chain indexer, era weight cache and purge orchestrator
(`src/subcommands/purge_signatures/purge.rs`)

Embedded from the source: `initialize_indices`, `EraWeights::refresh_weights_for_era`
and `purge_signatures_for_blocks`.  Block hashes, era ids and protocol
versions are embedded as `Nat` (each is only ever compared or used as an
ordered map key; `EraId::successor()` is `+ 1`, genesis is era 0,
`ProtocolVersion` is an arbitrary linear order).  The header store keyed by
height, the header store keyed by block hash, and the signature store keyed
by block hash are association lists.  `ProgressTracker` (whose source file
`common/progress.rs` is also absent from the sources) only logs percentages;
its sole control-flow effect at the call sites is that `ProgressTracker::new`
fails on an empty work list, which `initialize_indices` maps to
`EmptyDatabase` and `purge_signatures_for_blocks` maps to `EmptyBlockList`. -/

/-- A block header, with the fields `purge.rs` reads:  `height()`,
`era_id()`, `protocol_version()`, `is_switch_block()`,
`next_era_validator_weights()` and `block_hash()`. -/
structure BlockHeader where
  height : Nat
  eraId : Nat
  protocolVersion : Nat
  isSwitchBlock : Bool
  nextEraValidatorWeights : Option (List (Nat × Nat))
  blockHash : Nat
deriving DecidableEq

/-- Lookup structure built by `initialize_indices`. -/
structure Indices where
  heights : List (Nat × (Nat × BlockHeader))
  switchBlocks : List (Nat × Nat)
  switchBlocksBeforeUpgrade : List Nat
deriving DecidableEq

/-- `Indices::default()`. -/
def Indices.init : Indices := ⟨[], [], []⟩

inductive PurgeError where
  | emptyBlockList
  | emptyDatabase
  | duplicateBlock (height : Nat)
  | missingEraWeights (eraId : Nat)
  | missingBlockHeader (blockHash : Nat)
deriving DecidableEq

/-- Greatest element of a list of naturals (`none` on the empty list). -/
def maxO : Option Nat → Nat → Option Nat
  | none, h => some h
  | some m, h => some (max m h)

def listMax (l : List Nat) : Option Nat := l.foldl maxO none

/-- Keys of an association list. -/
def keysOf {β : Type} (m : List (Nat × β)) : List Nat := m.map Prod.fst

/-- Greatest key of an association list (`BTreeMap` iteration order ends at
the greatest key; `pop_last` removes it). -/
def keysMax {β : Type} (m : List (Nat × β)) : Option Nat := listMax (keysOf m)

/-- `BTreeMap::pop_last`: drop the entry with the greatest key (no-op on an
empty map). -/
def popLast (m : List (Nat × Nat)) : List (Nat × Nat) :=
  match keysMax m with
  | none => m
  | some k => m.filter fun p => !(decide (p.1 = k))

/-- The `Tip` query of the indexed block store: the header of the
highest-height stored block (the store is keyed by height here). -/
def tipHeader (store : List (Nat × BlockHeader)) : Option BlockHeader :=
  match keysMax store with
  | none => none
  | some k => lookupD store k

/-- The `last_blocks_before_upgrade` entry update of `initialize_indices`:
vacant ⇒ insert the height, occupied ⇒ keep the maximum height. -/
def insertMaxHeight (lbbu : List (Nat × Nat)) (version height : Nat) : List (Nat × Nat) :=
  match lookupD lbbu version with
  | none => upsert lbbu version height
  | some old => if old < height then upsert lbbu version height else lbbu

/-- The switch-block half of `initialize_indices`' scan body: when the header
is a switch block, record its hash into `switch_blocks` keyed by
`era_id().successor()` and update the per-protocol-version maximum height. -/
def scanSwitch (acc : Indices × List (Nat × Nat)) (block_header : BlockHeader) :
    Indices × List (Nat × Nat) :=
  if block_header.isSwitchBlock then
    ({ acc.1 with
        switchBlocks :=
          upsert acc.1.switchBlocks (block_header.eraId + 1) block_header.blockHash },
      insertMaxHeight acc.2 block_header.protocolVersion block_header.height)
  else acc

/-- The requested-heights half of the scan body: when the header's height is
requested, record `(hash, header)` into `heights`, failing with
`DuplicateBlock` when that height was already recorded. -/
def scanNeeded (needed : List Nat) (st : Indices × List (Nat × Nat))
    (block_header : BlockHeader) : Except PurgeError (Indices × List (Nat × Nat)) :=
  if needed.contains block_header.height then
    if (lookupD st.1.heights block_header.height).isSome then
      .error (.duplicateBlock block_header.height)
    else
      .ok ({ st.1 with
        heights :=
          upsert st.1.heights block_header.height (block_header.blockHash, block_header) },
        st.2)
  else
    .ok st

/-- The body of `initialize_indices`' scan loop for one block header read
from the store. -/
def scanStep (needed : List Nat) (acc : Indices × List (Nat × Nat))
    (block_header : BlockHeader) : Except PurgeError (Indices × List (Nat × Nat)) :=
  scanNeeded needed (scanSwitch acc block_header) block_header

/-- The scan loop of `initialize_indices` over the present block heights:
read each header (skipping heights that fail to read) and run `scanStep`. -/
def scanHeights (store : List (Nat × BlockHeader)) (needed : List Nat) :
    (Indices × List (Nat × Nat)) → List Nat → Except PurgeError (Indices × List (Nat × Nat))
  | acc, [] => .ok acc
  | acc, h :: rest =>
    match lookupD store h with
    | some hdr =>
      match scanStep needed acc hdr with
      | .ok acc' => scanHeights store needed acc' rest
      | .error e => .error e
    | none => scanHeights store needed acc rest

/-- `initialize_indices`: read the tip, collect the present heights in
`0..=tip.height()`, scan them, then drop the per-version maximum of the
highest protocol version and keep the remaining maxima's heights as
`switch_blocks_before_upgrade`. -/
def initialize_indices (store : List (Nat × BlockHeader)) (needed_heights : List Nat) :
    Except PurgeError Indices :=
  match tipHeader store with
  | none => .error .emptyDatabase
  | some latest_block_header =>
    let block_heights :=
      (List.range (latest_block_header.height + 1)).filter fun h => (lookupD store h).isSome
    if block_heights.isEmpty then .error .emptyDatabase
    else
      match scanHeights store needed_heights (Indices.init, []) block_heights with
      | .error e => .error e
      | .ok (indices, last_blocks_before_upgrade) =>
        .ok { indices with
          switchBlocksBeforeUpgrade := (popLast last_blocks_before_upgrade).map Prod.snd }

/-- The era weight cache (`EraWeights`). -/
structure EraWeights where
  eraId : Nat
  weights : List (Nat × Nat)
  eraAfterUpgrade : Bool
deriving DecidableEq

/-- `EraWeights::default()`: era id 0, empty weight table, flag `false`. -/
def EraWeights.init : EraWeights := ⟨0, [], false⟩

/-- `EraWeights::refresh_weights_for_era`: early exit when the requested era
is already cached, otherwise resolve the era's switch block through the
indices, read its header from the store, extract the next-era validator
weights and replace the cache. -/
def refresh_weights_for_era (self : EraWeights) (txn : List (Nat × BlockHeader))
    (indices : Indices) (era_id : Nat) : Except PurgeError (EraWeights × Bool) :=
  if self.eraId = era_id then .ok (self, self.eraAfterUpgrade)
  else
    match lookupD indices.switchBlocks era_id with
    | none => .error (.missingEraWeights era_id)
    | some switch_block_hash =>
      match lookupD txn switch_block_hash with
      | none => .error (.missingBlockHeader switch_block_hash)
      | some switch_block_header =>
        let era_after_upgrade :=
          indices.switchBlocksBeforeUpgrade.contains switch_block_header.height
        match switch_block_header.nextEraValidatorWeights with
        | none => .error (.missingEraWeights era_id)
        | some weights =>
          .ok ({ eraId := era_id, weights := weights,
                 eraAfterUpgrade := era_after_upgrade }, era_after_upgrade)

/-- A block's stored signature record: the block hash it is keyed by and its
`proofs` map of signer public keys (signature values are never inspected). -/
structure BlockSignatures where
  blockHash : Nat
  proofs : List Nat
deriving DecidableEq

/-- `strip_signatures` on a signature record: run the reduction on the
`proofs` key set, mutating the record only on success. -/
def strip_signatures (bs : BlockSignatures) (weights : List (Nat × Nat)) :
    Bool × BlockSignatures :=
  let res := strip bs.proofs weights
  (res.1, { bs with proofs := res.2 })

/-- Record deletion from a keyed store. -/
def deleteKey {β : Type} (m : List (Nat × β)) (k : Nat) : List (Nat × β) :=
  m.filter fun p => !(decide (p.1 = k))

/-- One iteration of `purge_signatures_for_blocks` for a single requested
height, threading the era weight cache and the signature store: skip heights
absent from the indices, skip genesis-era blocks, then refresh the era
weights (propagating its errors), skip blocks with no signature record, and
either delete the record (`full_purge`) or strip it, writing back only when
the strip succeeded. -/
def purgeStep (txn : List (Nat × BlockHeader)) (indices : Indices) (full_purge : Bool)
    (st : EraWeights × List (Nat × BlockSignatures)) (height : Nat) :
    Except PurgeError (EraWeights × List (Nat × BlockSignatures)) :=
  let era_weights := st.1
  let sigStore := st.2
  match lookupD indices.heights height with
  | none => .ok (era_weights, sigStore)
  | some (block_hash, block_header) =>
    if block_header.eraId = 0 then .ok (era_weights, sigStore)
    else
      match refresh_weights_for_era era_weights txn indices block_header.eraId with
      | .error e => .error e
      | .ok (era_weights', _era_after_upgrade) =>
        match lookupD sigStore block_hash with
        | none => .ok (era_weights', sigStore)
        | some block_signatures =>
          if full_purge then .ok (era_weights', deleteKey sigStore block_hash)
          else
            let res := strip_signatures block_signatures era_weights'.weights
            if res.1 then .ok (era_weights', upsert sigStore block_hash res.2)
            else .ok (era_weights', sigStore)

/-- The loop of `purge_signatures_for_blocks` over the visit list. -/
def purgeLoop (txn : List (Nat × BlockHeader)) (indices : Indices) (full_purge : Bool) :
    (EraWeights × List (Nat × BlockSignatures)) → List Nat →
      Except PurgeError (EraWeights × List (Nat × BlockSignatures))
  | st, [] => .ok st
  | st, h :: rest =>
    match purgeStep txn indices full_purge st h with
    | .ok st' => purgeLoop txn indices full_purge st' rest
    | .error e => .error e

/-- `purge_signatures_for_blocks`: fresh era weight cache, then the loop over
the requested heights; returns the resulting signature store. -/
def purge_signatures_for_blocks (txn : List (Nat × BlockHeader))
    (sigStore : List (Nat × BlockSignatures)) (indices : Indices)
    (heights_to_visit : List Nat) (full_purge : Bool) :
    Except PurgeError (List (Nat × BlockSignatures)) :=
  if heights_to_visit.isEmpty then .error .emptyBlockList
  else
    match purgeLoop txn indices full_purge (EraWeights.init, sigStore) heights_to_visit with
    | .ok (_, sigs) => .ok sigs
    | .error e => .error e

end LmdbUtils

namespace LmdbUtils

/-- **C9**. `EraWeights::default()` caches era id 0, so refreshing a freshly
created cache for era 0 takes the already-cached early exit: it returns
`Ok(false)` for every header store and every indices value (in particular it
raises no `MissingEraWeights` even when era 0 has no `switch_blocks` entry),
leaves the cache unchanged, and the default weight table is empty. -/
theorem refresh_weights_default_era_zero :
    (∀ (txn : List (Nat × BlockHeader)) (indices : Indices),
        refresh_weights_for_era EraWeights.init txn indices 0 =
          .ok (EraWeights.init, false)) ∧
      EraWeights.init.weights = [] :=
  ⟨fun _ _ => rfl, rfl⟩

theorem scanSwitch_heights (acc : Indices × List (Nat × Nat)) (hdr : BlockHeader) :
    (scanSwitch acc hdr).1.heights = acc.1.heights := by
  unfold scanSwitch
  split <;> rfl

theorem scanStep_ok_heights {needed : List Nat} {acc : Indices × List (Nat × Nat)}
    {hdr : BlockHeader} {res : Indices × List (Nat × Nat)}
    (h : scanStep needed acc hdr = .ok res) :
    res.1.heights = acc.1.heights ∨
      res.1.heights = upsert acc.1.heights hdr.height (hdr.blockHash, hdr) := by
  unfold scanStep scanNeeded at h
  split at h
  · split at h
    · cases h
    · cases h
      right
      simp [scanSwitch_heights]
  · cases h
    left
    exact scanSwitch_heights acc hdr

theorem scanStep_error_dup {needed : List Nat} {acc : Indices × List (Nat × Nat)}
    {hdr : BlockHeader} {e : PurgeError}
    (h : scanStep needed acc hdr = .error e) :
    e = .duplicateBlock hdr.height ∧ (lookupD acc.1.heights hdr.height).isSome := by
  unfold scanStep scanNeeded at h
  split at h
  · split at h
    · rename_i hsome
      cases h
      rw [scanSwitch_heights] at hsome
      exact ⟨rfl, hsome⟩
    · cases h
  · cases h

theorem scanHeights_duplicate {store : List (Nat × BlockHeader)} {needed : List Nat} :
    ∀ (L P : List Nat) (acc : Indices × List (Nat × Nat)) (x : Nat),
      (∀ bh, (lookupD acc.1.heights bh).isSome →
        ∃ k, k ∈ P ∧ ∃ hdr, lookupD store k = some hdr ∧ hdr.height = bh) →
      (∀ k ∈ P, k ∉ L) → L.Nodup →
      scanHeights store needed acc L = .error (.duplicateBlock x) →
      ∃ k₁ k₂, k₁ ≠ k₂ ∧
        (∃ hdr₁, lookupD store k₁ = some hdr₁ ∧ hdr₁.height = x) ∧
        (∃ hdr₂, lookupD store k₂ = some hdr₂ ∧ hdr₂.height = x) := by
  intro L
  induction L with
  | nil =>
    intro P acc x hinv hP hnd h
    simp [scanHeights] at h
  | cons h0 rest ih =>
    intro P acc x hinv hP hnd h
    simp only [scanHeights] at h
    split at h
    · rename_i hdr hlook
      split at h
      · rename_i acc' hstep
        refine ih (h0 :: P) acc' x ?_ ?_ (List.Nodup.of_cons hnd) h
        · intro bh hbh
          rcases scanStep_ok_heights hstep with he | he
          · rw [he] at hbh
            obtain ⟨k, hk, hprov⟩ := hinv bh hbh
            exact ⟨k, List.mem_cons_of_mem _ hk, hprov⟩
          · rw [he, lookupD_upsert] at hbh
            by_cases hx : hdr.height = bh
            · exact ⟨h0, List.mem_cons_self _ _, hdr, hlook, hx⟩
            · rw [if_neg hx] at hbh
              obtain ⟨k, hk, hprov⟩ := hinv bh hbh
              exact ⟨k, List.mem_cons_of_mem _ hk, hprov⟩
        · intro k hk
          rcases List.mem_cons.mp hk with hk | hk
          · exact hk ▸ (List.nodup_cons.mp hnd).1
          · exact fun hmem => hP k hk (List.mem_cons_of_mem _ hmem)
      · rename_i e hstep
        cases h
        obtain ⟨he, hsome⟩ := scanStep_error_dup hstep
        cases he
        obtain ⟨k, hk, hdr₁, hprov, hh⟩ := hinv hdr.height hsome
        refine ⟨k, h0, ?_, ⟨hdr₁, hprov, hh⟩, ⟨hdr, hlook, rfl⟩⟩
        intro hke
        exact hP k hk (hke ▸ List.mem_cons_self _ _)
    · refine ih (h0 :: P) acc x ?_ ?_ (List.Nodup.of_cons hnd) h
      · intro bh hbh
        obtain ⟨k, hk, hprov⟩ := hinv bh hbh
        exact ⟨k, List.mem_cons_of_mem _ hk, hprov⟩
      · intro k hk
        rcases List.mem_cons.mp hk with hk | hk
        · exact hk ▸ (List.nodup_cons.mp hnd).1
        · exact fun hmem => hP k hk (List.mem_cons_of_mem _ hmem)

/-- **C8**. `initialize_indices` returns `DuplicateBlock(x)` only when the
header store is inconsistent — two distinct height keys yield headers that
both report height `x`; consequently, under the precondition that every
header read at height key `h` reports height `h`, the `DuplicateBlock`
branch is unreachable. -/
theorem initialize_indices_duplicate_unreachable :
    (∀ (store : List (Nat × BlockHeader)) (needed : List Nat) (x : Nat),
        initialize_indices store needed = .error (.duplicateBlock x) →
        ∃ k₁ k₂, k₁ ≠ k₂ ∧
          (∃ hdr₁, lookupD store k₁ = some hdr₁ ∧ hdr₁.height = x) ∧
          (∃ hdr₂, lookupD store k₂ = some hdr₂ ∧ hdr₂.height = x)) ∧
      (∀ (store : List (Nat × BlockHeader)) (needed : List Nat),
        (∀ h hdr, lookupD store h = some hdr → hdr.height = h) →
        ∀ x, initialize_indices store needed ≠ .error (.duplicateBlock x)) := by
  have main : ∀ (store : List (Nat × BlockHeader)) (needed : List Nat) (x : Nat),
      initialize_indices store needed = .error (.duplicateBlock x) →
      ∃ k₁ k₂, k₁ ≠ k₂ ∧
        (∃ hdr₁, lookupD store k₁ = some hdr₁ ∧ hdr₁.height = x) ∧
        (∃ hdr₂, lookupD store k₂ = some hdr₂ ∧ hdr₂.height = x) := by
    intro store needed x h
    simp only [initialize_indices] at h
    split at h
    · cases h
    · rename_i latest hlatest
      split at h
      · cases h
      · split at h
        · rename_i e hscan
          cases h
          refine scanHeights_duplicate _ [] (Indices.init, []) x ?_ ?_ ?_ hscan
          · intro bh hbh
            simp [Indices.init] at hbh
          · intro k hk
            simp at hk
          · exact List.Nodup.filter _ (List.nodup_range _)
        · cases h
  refine ⟨main, ?_⟩
  intro store needed hcons x h
  obtain ⟨k₁, k₂, hne, ⟨hdr₁, hl₁, hh₁⟩, ⟨hdr₂, hl₂, hh₂⟩⟩ := main store needed x h
  have e₁ := hcons k₁ hdr₁ hl₁
  have e₂ := hcons k₂ hdr₂ hl₂
  omega

end LmdbUtils

namespace LmdbUtils

/-- Concrete instantiation of the `DuplicateBlock` unreachability on a
single-header store whose header reports its own height key. -/
theorem initialize_indices_duplicate_unreachable_witness :
    initialize_indices [(100, (⟨100, 10, 1, false, none, 900⟩ : BlockHeader))] [100]
      ≠ .error (.duplicateBlock 0) := by
  refine initialize_indices_duplicate_unreachable.2 _ [100] ?_ 0
  intro h hdr hl
  rw [lookupD_cons] at hl
  split at hl
  · rename_i he
    cases hl
    exact he
  · cases hl

theorem purgeLoop_append (txn : List (Nat × BlockHeader)) (indices : Indices)
    (full_purge : Bool) :
    ∀ (pre : List Nat) (st : EraWeights × List (Nat × BlockSignatures)) (rest : List Nat),
      purgeLoop txn indices full_purge st (pre ++ rest) =
        match purgeLoop txn indices full_purge st pre with
        | .ok st' => purgeLoop txn indices full_purge st' rest
        | .error e => .error e := by
  intro pre
  induction pre with
  | nil => intro st rest; rfl
  | cons h t ih =>
    intro st rest
    simp only [List.cons_append, purgeLoop]
    cases hstep : purgeStep txn indices full_purge st h with
    | ok st' => exact ih st' rest
    | error e => rfl

/-- **C6**. Classification of a visited height in
`purge_signatures_for_blocks`: a height absent from the indices, a block of
the genesis era, and a block without a stored signature record are each
skipped with `Ok` and the signature store unchanged (the era-weight cache may
advance); a block whose era weights cannot be refreshed aborts the step — and
with it the entire call — with the refresh error (`MissingEraWeights` when
the era has no switch block entry), in both `Weak` and `Full` modes, because
the refresh happens before the signature read and before the mode branch. -/
theorem purge_signatures_classification :
    (∀ txn indices full_purge ew ss h,
        lookupD indices.heights h = none →
        purgeStep txn indices full_purge (ew, ss) h = .ok (ew, ss)) ∧
      (∀ txn indices full_purge ew ss h bh hdr,
        lookupD indices.heights h = some (bh, hdr) → hdr.eraId = 0 →
        purgeStep txn indices full_purge (ew, ss) h = .ok (ew, ss)) ∧
      (∀ txn indices full_purge ew ss h bh hdr ew' flag,
        lookupD indices.heights h = some (bh, hdr) → hdr.eraId ≠ 0 →
        refresh_weights_for_era ew txn indices hdr.eraId = .ok (ew', flag) →
        lookupD ss bh = none →
        purgeStep txn indices full_purge (ew, ss) h = .ok (ew', ss)) ∧
      (∀ txn indices full_purge ew ss h bh hdr e,
        lookupD indices.heights h = some (bh, hdr) → hdr.eraId ≠ 0 →
        refresh_weights_for_era ew txn indices hdr.eraId = .error e →
        purgeStep txn indices full_purge (ew, ss) h = .error e) ∧
      (∀ txn indices full_purge sigStore pre h post st' e,
        purgeLoop txn indices full_purge (EraWeights.init, sigStore) pre = .ok st' →
        purgeStep txn indices full_purge st' h = .error e →
        purge_signatures_for_blocks txn sigStore indices (pre ++ h :: post) full_purge
          = .error e) := by
  refine ⟨?_, ?_, ?_, ?_, ?_⟩
  · intro txn indices full_purge ew ss h hl
    simp [purgeStep, hl]
  · intro txn indices full_purge ew ss h bh hdr hl hera
    simp [purgeStep, hl, hera]
  · intro txn indices full_purge ew ss h bh hdr ew' flag hl hera hrefresh hsig
    simp [purgeStep, hl, hera, hrefresh, hsig]
  · intro txn indices full_purge ew ss h bh hdr e hl hera hrefresh
    simp [purgeStep, hl, hera, hrefresh]
  · intro txn indices full_purge sigStore pre h post st' e hloop hstep
    have hne : ((pre ++ h :: post).isEmpty) = false := by
      simp
    simp only [purge_signatures_for_blocks, hne, Bool.false_eq_true, if_false]
    rw [purgeLoop_append txn indices full_purge pre (EraWeights.init, sigStore) (h :: post)]
    rw [hloop]
    simp only [purgeLoop, hstep]

/-- Concrete instantiation of the classification: skipped heights leave the
store unchanged, and an unresolvable era aborts the whole call with
`MissingEraWeights` in both modes. -/
theorem purge_signatures_classification_witness :
    purgeStep [] ⟨[(100, (500, ⟨100, 5, 1, false, none, 500⟩))], [], []⟩ false
        (EraWeights.init, []) 99 = .ok (EraWeights.init, []) ∧
      purgeStep [] ⟨[(100, (500, ⟨100, 0, 1, false, none, 500⟩))], [], []⟩ true
        (EraWeights.init, []) 100 = .ok (EraWeights.init, []) ∧
      purgeStep [] ⟨[(100, (500, ⟨100, 5, 1, false, none, 500⟩))], [], []⟩ false
        ((⟨5, [], false⟩ : EraWeights), []) 100 = .ok ((⟨5, [], false⟩ : EraWeights), []) ∧
      purgeStep [] ⟨[(100, (500, ⟨100, 5, 1, false, none, 500⟩))], [], []⟩ true
        (EraWeights.init, []) 100 = .error (.missingEraWeights 5) ∧
      purge_signatures_for_blocks [] [] ⟨[(100, (500, ⟨100, 5, 1, false, none, 500⟩))], [], []⟩
        [100] false = .error (.missingEraWeights 5) := by
  refine ⟨?_, ?_, ?_, ?_, ?_⟩
  · exact purge_signatures_classification.1 [] _ false EraWeights.init [] 99 (by decide)
  · exact purge_signatures_classification.2.1 [] _ true EraWeights.init [] 100 500
      ⟨100, 0, 1, false, none, 500⟩ (by decide) (by decide)
  · exact purge_signatures_classification.2.2.1 [] _ false ⟨5, [], false⟩ [] 100 500
      ⟨100, 5, 1, false, none, 500⟩ ⟨5, [], false⟩ false (by decide) (by decide) rfl rfl
  · exact purge_signatures_classification.2.2.2.1 [] _ true EraWeights.init [] 100 500
      ⟨100, 5, 1, false, none, 500⟩ (.missingEraWeights 5) (by decide) (by decide) rfl
  · exact purge_signatures_classification.2.2.2.2 [] _ false [] [] 100 []
      (EraWeights.init, []) (.missingEraWeights 5) rfl
      (purge_signatures_classification.2.2.2.1 [] _ false EraWeights.init [] 100 500
        ⟨100, 5, 1, false, none, 500⟩ (.missingEraWeights 5) (by decide) (by decide) rfl)

end LmdbUtils

namespace LmdbUtils

/-! ## Slice extraction entry point (`src/subcommands/extract_slice/`)

Embedded from the source: `extract.rs` first calls
`storage::create_output_db_dir(&output)` and only then opens the stores and
runs `storage::transfer_block_info` / `global_state::transfer_global_state`.
The two transfer routines are LMDB I/O pipelines; `extract_slice` is embedded
parametrically over them (they are arguments), which makes the guard
ordering provable for every possible transfer behaviour. -/

/-- The filesystem state relevant to the output-directory guard. -/
structure OutputFs where
  outputExists : Bool
deriving DecidableEq

inductive ExtractError where
  | outputAlreadyExists
  | transfer (code : Nat)
deriving DecidableEq

/-- `create_output_db_dir`: fail with the `AlreadyExists` I/O error when the
output path exists, otherwise create the directory. -/
def create_output_db_dir (fs : OutputFs) : Except ExtractError OutputFs :=
  if fs.outputExists then .error .outputAlreadyExists
  else .ok { outputExists := true }

inductive SliceIdentifier where
  | blockHash (hash : Nat)
  | stateRootHash (digest : Nat)

/-- The part of `extract_slice` after the output-directory guard: resolve the
state root hash (via `transfer_block_info` when given a block hash) and run
`transfer_global_state`. -/
def extract_slice_rest
    (transfer_block_info : OutputFs → Nat → Except ExtractError (OutputFs × Nat))
    (transfer_global_state : OutputFs → Nat → Except ExtractError OutputFs)
    (fs : OutputFs) (slice_identifier : SliceIdentifier) : Except ExtractError OutputFs :=
  match (match slice_identifier with
         | .blockHash block_hash => transfer_block_info fs block_hash
         | .stateRootHash state_root_hash => .ok (fs, state_root_hash)) with
  | .error e => .error e
  | .ok (fs', state_root_hash) => transfer_global_state fs' state_root_hash

/-- `extract_slice`: the output-directory guard runs first, then the
transfers. -/
def extract_slice
    (transfer_block_info : OutputFs → Nat → Except ExtractError (OutputFs × Nat))
    (transfer_global_state : OutputFs → Nat → Except ExtractError OutputFs)
    (fs : OutputFs) (slice_identifier : SliceIdentifier) : Except ExtractError OutputFs :=
  match create_output_db_dir fs with
  | .error e => .error e
  | .ok fs' => extract_slice_rest transfer_block_info transfer_global_state fs' slice_identifier

/-- **C10**. When the output path already exists, `extract_slice` fails with
the `AlreadyExists` error for *every* possible transfer behaviour — the guard
runs before either store is opened or read, so no data is touched; when the
output path does not exist, the call equals the transfer pipeline run on the
state in which the directory has been created, i.e. the directory is created
before any transfer begins. -/
theorem extract_slice_output_guard :
    (∀ transfer_block_info transfer_global_state (fs : OutputFs) slice_identifier,
        fs.outputExists = true →
        extract_slice transfer_block_info transfer_global_state fs slice_identifier
          = .error .outputAlreadyExists) ∧
      (∀ transfer_block_info transfer_global_state (fs : OutputFs) slice_identifier,
        fs.outputExists = false →
        extract_slice transfer_block_info transfer_global_state fs slice_identifier
          = extract_slice_rest transfer_block_info transfer_global_state
              { outputExists := true } slice_identifier) := by
  constructor
  · intro tbi tgs fs ident h
    simp [extract_slice, create_output_db_dir, h]
  · intro tbi tgs fs ident h
    simp [extract_slice, create_output_db_dir, h]

/-- Concrete instantiation of the output guard with trivial transfers. -/
theorem extract_slice_output_guard_witness :
    extract_slice (fun fs bh => .ok (fs, bh)) (fun fs _ => .ok fs)
        ⟨true⟩ (.stateRootHash 7) = .error .outputAlreadyExists ∧
      extract_slice (fun fs bh => .ok (fs, bh)) (fun fs _ => .ok fs)
        ⟨false⟩ (.stateRootHash 7)
        = extract_slice_rest (fun fs bh => .ok (fs, bh)) (fun fs _ => .ok fs)
            ⟨true⟩ (.stateRootHash 7) :=
  ⟨extract_slice_output_guard.1 _ _ ⟨true⟩ (.stateRootHash 7) rfl,
   extract_slice_output_guard.2 _ _ ⟨false⟩ (.stateRootHash 7) rfl⟩

end LmdbUtils

namespace LmdbUtils

/-- The pure effect of one scanned header on `last_blocks_before_upgrade`. -/
def lbbuStep (lb : List (Nat × Nat)) (hdr : BlockHeader) : List (Nat × Nat) :=
  if hdr.isSwitchBlock then insertMaxHeight lb hdr.protocolVersion hdr.height else lb

/-- The pure accumulation of `last_blocks_before_upgrade` over a header list. -/
def lbbuScan (headers : List BlockHeader) (lb : List (Nat × Nat)) : List (Nat × Nat) :=
  headers.foldl lbbuStep lb

theorem scanSwitch_snd (acc : Indices × List (Nat × Nat)) (hdr : BlockHeader) :
    (scanSwitch acc hdr).2 = lbbuStep acc.2 hdr := by
  unfold scanSwitch lbbuStep
  split <;> rfl

theorem scanNeeded_ok_snd {needed : List Nat} {st res : Indices × List (Nat × Nat)}
    {hdr : BlockHeader} (h : scanNeeded needed st hdr = .ok res) : res.2 = st.2 := by
  unfold scanNeeded at h
  split at h
  · split at h
    · cases h
    · cases h
      rfl
  · cases h
    rfl

theorem scanStep_ok_lbbu {needed : List Nat} {acc res : Indices × List (Nat × Nat)}
    {hdr : BlockHeader} (h : scanStep needed acc hdr = .ok res) :
    res.2 = lbbuStep acc.2 hdr := by
  unfold scanStep at h
  rw [scanNeeded_ok_snd h, scanSwitch_snd]

theorem scanHeights_ok_lbbu {store : List (Nat × BlockHeader)} {needed : List Nat} :
    ∀ (L : List Nat) (acc res : Indices × List (Nat × Nat)),
      scanHeights store needed acc L = .ok res →
      res.2 = lbbuScan (L.filterMap fun h => lookupD store h) acc.2 := by
  intro L
  induction L with
  | nil =>
    intro acc res h
    cases h
    rfl
  | cons h0 t ih =>
    intro acc res h
    simp only [scanHeights] at h
    split at h
    · rename_i hdr hlook
      split at h
      · rename_i acc' hstep
        rw [List.filterMap_cons, hlook]
        have hres := ih acc' res h
        rw [scanStep_ok_lbbu hstep] at hres
        simpa [lbbuScan] using hres
      · cases h
    · rename_i hlook
      rw [List.filterMap_cons, hlook]
      exact ih acc res h

/-- Heights of the switch blocks carrying protocol version `v` in a header
list. -/
def switchHeights (headers : List BlockHeader) (v : Nat) : List Nat :=
  (headers.filter fun hdr => hdr.isSwitchBlock && decide (hdr.protocolVersion = v)).map
    BlockHeader.height

/-- Protocol versions of the switch blocks in a header list. -/
def switchVersions (headers : List BlockHeader) : List Nat :=
  (headers.filter fun hdr => hdr.isSwitchBlock).map BlockHeader.protocolVersion

theorem lookupD_insertMaxHeight (lb : List (Nat × Nat)) (ver hgt v : Nat) :
    lookupD (insertMaxHeight lb ver hgt) v =
      if ver = v then maxO (lookupD lb v) hgt else lookupD lb v := by
  unfold insertMaxHeight
  cases hl : lookupD lb ver with
  | none =>
    rw [lookupD_upsert]
    by_cases hv : ver = v
    · subst hv
      rw [if_pos rfl, if_pos rfl, hl]
      rfl
    · rw [if_neg hv, if_neg hv]
  | some old =>
    dsimp only
    by_cases hlt : old < hgt
    · rw [if_pos hlt, lookupD_upsert]
      by_cases hv : ver = v
      · subst hv
        rw [if_pos rfl, if_pos rfl, hl]
        simp only [maxO]
        rw [Nat.max_eq_right (Nat.le_of_lt hlt)]
      · rw [if_neg hv, if_neg hv]
    · rw [if_neg hlt]
      by_cases hv : ver = v
      · subst hv
        rw [if_pos rfl, hl]
        simp only [maxO]
        rw [Nat.max_eq_left (Nat.le_of_not_lt hlt)]
      · rw [if_neg hv]

theorem lbbuScan_lookup :
    ∀ (headers : List BlockHeader) (lb : List (Nat × Nat)) (v : Nat),
      lookupD (lbbuScan headers lb) v =
        (switchHeights headers v).foldl maxO (lookupD lb v) := by
  intro headers
  induction headers with
  | nil => intro lb v; rfl
  | cons hdr t ih =>
    intro lb v
    simp only [lbbuScan, List.foldl_cons]
    have hstep : lookupD (lbbuStep lb hdr) v =
        if hdr.isSwitchBlock = true ∧ hdr.protocolVersion = v
        then maxO (lookupD lb v) hdr.height else lookupD lb v := by
      unfold lbbuStep
      by_cases hs : hdr.isSwitchBlock = true
      · rw [if_pos hs, lookupD_insertMaxHeight]
        by_cases hv : hdr.protocolVersion = v
        · rw [if_pos hv, if_pos ⟨hs, hv⟩]
        · rw [if_neg hv, if_neg (fun hc => hv hc.2)]
      · rw [if_neg hs, if_neg (fun hc => hs hc.1)]
    have hsw : switchHeights (hdr :: t) v =
        if hdr.isSwitchBlock = true ∧ hdr.protocolVersion = v
        then hdr.height :: switchHeights t v else switchHeights t v := by
      unfold switchHeights
      rw [List.filter_cons]
      by_cases hc : hdr.isSwitchBlock = true ∧ hdr.protocolVersion = v
      · rw [if_pos hc]
        have hb : (hdr.isSwitchBlock && decide (hdr.protocolVersion = v)) = true := by
          simp [hc.1, hc.2]
        rw [if_pos hb]
        rfl
      · rw [if_neg hc]
        have hb : ¬ ((hdr.isSwitchBlock && decide (hdr.protocolVersion = v)) = true) := by
          intro hb
          simp only [Bool.and_eq_true, decide_eq_true_eq] at hb
          exact hc hb
        rw [if_neg hb]
    have hih := ih (lbbuStep lb hdr) v
    simp only [lbbuScan] at hih
    rw [hstep] at hih
    rw [hsw]
    by_cases hc : hdr.isSwitchBlock = true ∧ hdr.protocolVersion = v
    · rw [if_pos hc] at hih
      rw [if_pos hc, List.foldl_cons]
      exact hih
    · rw [if_neg hc] at hih
      rw [if_neg hc]
      exact hih

end LmdbUtils

namespace LmdbUtils

@[simp]
theorem keysOf_nil {β : Type} : keysOf ([] : List (Nat × β)) = [] := rfl

@[simp]
theorem keysOf_cons {β : Type} (k : Nat) (v : β) (rest : List (Nat × β)) :
    keysOf ((k, v) :: rest) = k :: keysOf rest := rfl

theorem mem_keysOf_iff {β : Type} :
    ∀ (m : List (Nat × β)) (x : Nat), x ∈ keysOf m ↔ (lookupD m x).isSome := by
  intro m
  induction m with
  | nil => intro x; simp
  | cons p rest ih =>
    intro x
    obtain ⟨k, v⟩ := p
    simp only [keysOf_cons, List.mem_cons, lookupD_cons]
    by_cases hk : k = x
    · subst hk
      simp
    · have hxk : ¬ (x = k) := fun h => hk h.symm
      simp [hk, hxk, ih]

theorem mem_iff_lookupD {β : Type} :
    ∀ (m : List (Nat × β)), (keysOf m).Nodup →
      ∀ (k : Nat) (v : β), ((k, v) ∈ m ↔ lookupD m k = some v) := by
  intro m
  induction m with
  | nil => intro _ k v; simp
  | cons p rest ih =>
    intro hnd k v
    obtain ⟨k₀, v₀⟩ := p
    rw [keysOf_cons, List.nodup_cons] at hnd
    simp only [List.mem_cons, lookupD_cons, Prod.mk.injEq]
    by_cases hk : k₀ = k
    · subst hk
      rw [if_pos rfl]
      constructor
      · rintro (⟨-, rfl⟩ | hmem)
        · rfl
        · have hkmem : k₀ ∈ keysOf rest := List.mem_map.mpr ⟨(k₀, v), hmem, rfl⟩
          exact absurd hkmem hnd.1
      · intro h
        cases h
        exact Or.inl ⟨rfl, rfl⟩
    · rw [if_neg hk]
      rw [← ih hnd.2 k v]
      constructor
      · rintro (⟨h1, -⟩ | hmem)
        · exact absurd h1.symm hk
        · exact hmem
      · intro h
        exact Or.inr h

theorem maxO_eq_some (o : Option Nat) (h : Nat) : ∃ m, maxO o h = some m ∧ h ≤ m := by
  cases o with
  | none => exact ⟨h, rfl, Nat.le_refl h⟩
  | some a => exact ⟨max a h, rfl, Nat.le_max_right a h⟩

theorem foldl_maxO_none_iff :
    ∀ (l : List Nat) (init : Option Nat),
      l.foldl maxO init = none ↔ l = [] ∧ init = none := by
  intro l
  induction l with
  | nil => intro init; simp
  | cons h t ih =>
    intro init
    simp only [List.foldl_cons, ih]
    obtain ⟨m, hm, -⟩ := maxO_eq_some init h
    simp [hm]

theorem foldl_maxO_spec :
    ∀ (l : List Nat) (init : Option Nat) (k : Nat),
      l.foldl maxO init = some k →
      (∀ x ∈ l, x ≤ k) ∧ (∀ i, init = some i → i ≤ k) ∧ (k ∈ l ∨ init = some k) := by
  intro l
  induction l with
  | nil =>
    intro init k h
    refine ⟨by simp, ?_, Or.inr h⟩
    intro i hi
    rw [hi] at h
    cases h
    exact Nat.le_refl _
  | cons h0 t ih =>
    intro init k h
    simp only [List.foldl_cons] at h
    obtain ⟨hle, hinit, hmem⟩ := ih (maxO init h0) k h
    obtain ⟨m, hm, hhm⟩ := maxO_eq_some init h0
    have hmk : m ≤ k := hinit m hm
    refine ⟨?_, ?_, ?_⟩
    · intro x hx
      rcases List.mem_cons.mp hx with hx | hx
      · exact hx ▸ Nat.le_trans hhm hmk
      · exact hle x hx
    · intro i hi
      subst hi
      have hmm : maxO (some i) h0 = some (max i h0) := rfl
      rw [hmm] at hm
      cases hm
      exact Nat.le_trans (Nat.le_max_left i h0) hmk
    · rcases hmem with hk | hk
      · exact Or.inl (List.mem_cons_of_mem _ hk)
      · cases init with
        | none =>
          have : maxO none h0 = some h0 := rfl
          rw [this] at hk
          cases hk
          exact Or.inl (List.mem_cons_self _ _)
        | some a =>
          have : maxO (some a) h0 = some (max a h0) := rfl
          rw [this] at hk
          cases hk
          rcases max_choice a h0 with hc | hc
          · exact Or.inr (by rw [hc])
          · exact Or.inl (by rw [hc]; exact List.mem_cons_self _ _)

theorem listMax_none_iff (l : List Nat) : listMax l = none ↔ l = [] := by
  unfold listMax
  rw [foldl_maxO_none_iff]
  simp

theorem listMax_spec {l : List Nat} {k : Nat} (h : listMax l = some k) :
    k ∈ l ∧ ∀ x ∈ l, x ≤ k := by
  obtain ⟨hle, -, hmem⟩ := foldl_maxO_spec l none k h
  rcases hmem with hk | hk
  · exact ⟨hk, hle⟩
  · cases hk

theorem listMax_congr {l₁ l₂ : List Nat} (h : ∀ x, x ∈ l₁ ↔ x ∈ l₂) :
    listMax l₁ = listMax l₂ := by
  cases h1 : listMax l₁ with
  | none =>
    rw [listMax_none_iff] at h1
    subst h1
    cases h2 : listMax l₂ with
    | none => rfl
    | some k₂ =>
      obtain ⟨hmem, -⟩ := listMax_spec h2
      exact absurd ((h k₂).mpr hmem) (by simp)
  | some k₁ =>
    obtain ⟨hmem1, hle1⟩ := listMax_spec h1
    cases h2 : listMax l₂ with
    | none =>
      rw [listMax_none_iff] at h2
      subst h2
      exact absurd ((h k₁).mp hmem1) (by simp)
    | some k₂ =>
      obtain ⟨hmem2, hle2⟩ := listMax_spec h2
      have e1 : k₁ ≤ k₂ := hle2 k₁ ((h k₁).mp hmem1)
      have e2 : k₂ ≤ k₁ := hle1 k₂ ((h k₂).mpr hmem2)
      rw [Nat.le_antisymm e1 e2]

theorem mem_keysOf_upsert {β : Type} :
    ∀ (m : List (Nat × β)) (k : Nat) (v : β) (x : Nat),
      x ∈ keysOf (upsert m k v) ↔ x ∈ keysOf m ∨ x = k := by
  intro m
  induction m with
  | nil => intro k v x; simp [upsert]
  | cons p rest ih =>
    intro k v x
    obtain ⟨k₀, v₀⟩ := p
    unfold upsert
    by_cases hk : k₀ = k
    · subst hk
      rw [if_pos rfl]
      simp only [keysOf_cons, List.mem_cons]
      constructor
      · rintro (rfl | hx)
        · exact Or.inr rfl
        · exact Or.inl (Or.inr hx)
      · rintro ((rfl | hx) | rfl)
        · exact Or.inl rfl
        · exact Or.inr hx
        · exact Or.inl rfl
    · rw [if_neg hk]
      simp only [keysOf_cons, List.mem_cons, ih]
      tauto

theorem keysOf_upsert_nodup {β : Type} :
    ∀ (m : List (Nat × β)) (k : Nat) (v : β),
      (keysOf m).Nodup → (keysOf (upsert m k v)).Nodup := by
  intro m
  induction m with
  | nil => intro k v _; simp [upsert]
  | cons p rest ih =>
    intro k v hnd
    obtain ⟨k₀, v₀⟩ := p
    rw [keysOf_cons, List.nodup_cons] at hnd
    unfold upsert
    by_cases hk : k₀ = k
    · subst hk
      rw [if_pos rfl]
      rw [keysOf_cons, List.nodup_cons]
      exact hnd
    · rw [if_neg hk]
      rw [keysOf_cons, List.nodup_cons]
      refine ⟨?_, ih k v hnd.2⟩
      rw [mem_keysOf_upsert]
      rintro (hx | rfl)
      · exact hnd.1 hx
      · exact hk rfl

theorem insertMaxHeight_nodup {lb : List (Nat × Nat)} {ver hgt : Nat}
    (hnd : (keysOf lb).Nodup) : (keysOf (insertMaxHeight lb ver hgt)).Nodup := by
  unfold insertMaxHeight
  cases lookupD lb ver with
  | none => exact keysOf_upsert_nodup lb ver hgt hnd
  | some old =>
    dsimp only
    split
    · exact keysOf_upsert_nodup lb ver hgt hnd
    · exact hnd

theorem lbbuScan_nodup :
    ∀ (headers : List BlockHeader) (lb : List (Nat × Nat)),
      (keysOf lb).Nodup → (keysOf (lbbuScan headers lb)).Nodup := by
  intro headers
  induction headers with
  | nil => intro lb h; exact h
  | cons hdr t ih =>
    intro lb hnd
    simp only [lbbuScan, List.foldl_cons]
    refine ih (lbbuStep lb hdr) ?_
    unfold lbbuStep
    split
    · exact insertMaxHeight_nodup hnd
    · exact hnd

end LmdbUtils

namespace LmdbUtils

/-- The list of headers `initialize_indices` actually scans: the headers
present at heights `0..=tip.height()`, in ascending height order. -/
def scannedHeaders (store : List (Nat × BlockHeader)) : List BlockHeader :=
  match tipHeader store with
  | none => []
  | some latest =>
    ((List.range (latest.height + 1)).filter fun h => (lookupD store h).isSome).filterMap
      fun h => lookupD store h

/-- Specification-side quantity: the maximum height among version `v`'s
switch blocks. -/
def maxSwitchHeight (headers : List BlockHeader) (v : Nat) : Option Nat :=
  listMax (switchHeights headers v)

/-- Specification-side quantity: the highest protocol version observed among
switch blocks. -/
def maxSwitchVersion (headers : List BlockHeader) : Option Nat :=
  listMax (switchVersions headers)

/-- The specification's description of `switch_blocks_before_upgrade`,
stated from its words: the heights that are, for some protocol version
observed among switch blocks other than the highest one, the maximum height
among that version's switch blocks. -/
def lastSwitchBeforeUpgrade (headers : List BlockHeader) (hgt : Nat) : Prop :=
  ∃ v vtop, maxSwitchVersion headers = some vtop ∧ v ≠ vtop ∧
    maxSwitchHeight headers v = some hgt

theorem mem_switchVersions_iff (headers : List BlockHeader) (v : Nat) :
    v ∈ switchVersions headers ↔ switchHeights headers v ≠ [] := by
  unfold switchVersions switchHeights
  constructor
  · rintro hv hnil
    rw [List.mem_map] at hv
    obtain ⟨hdr, hmem, rfl⟩ := hv
    rw [List.mem_filter] at hmem
    have hin : hdr.height ∈ (headers.filter fun h =>
        h.isSwitchBlock && decide (h.protocolVersion = hdr.protocolVersion)).map
          BlockHeader.height :=
      List.mem_map.mpr ⟨hdr, List.mem_filter.mpr ⟨hmem.1, by simp [hmem.2]⟩, rfl⟩
    rw [hnil] at hin
    exact absurd hin (List.not_mem_nil _)
  · intro hne
    obtain ⟨x, hx⟩ := List.exists_mem_of_ne_nil _ hne
    rw [List.mem_map] at hx
    obtain ⟨hdr, hmem, rfl⟩ := hx
    rw [List.mem_filter] at hmem
    have h2 := hmem.2
    simp only [Bool.and_eq_true, decide_eq_true_eq] at h2
    exact List.mem_map.mpr ⟨hdr, List.mem_filter.mpr ⟨hmem.1, by simp [h2.1]⟩, h2.2⟩

theorem keysMax_lbbuScan (headers : List BlockHeader) :
    keysMax (lbbuScan headers []) = maxSwitchVersion headers := by
  unfold keysMax maxSwitchVersion
  refine listMax_congr ?_
  intro v
  rw [mem_keysOf_iff, lbbuScan_lookup headers [] v, lookupD_nil]
  rw [mem_switchVersions_iff]
  constructor
  · intro h1 h2
    rw [h2] at h1
    simp [maxO] at h1
  · intro hne
    rcases hfold : (switchHeights headers v).foldl maxO none with _ | k
    · exact absurd ((listMax_none_iff _).mp hfold) hne
    · rfl

theorem lookupD_lbbuScan_eq_maxSwitchHeight (headers : List BlockHeader) (v : Nat) :
    lookupD (lbbuScan headers []) v = maxSwitchHeight headers v := by
  rw [lbbuScan_lookup headers [] v, lookupD_nil]
  rfl

theorem popLast_lbbu_mem (headers : List BlockHeader) (hgt : Nat) :
    hgt ∈ (popLast (lbbuScan headers [])).map Prod.snd ↔
      lastSwitchBeforeUpgrade headers hgt := by
  have hnd : (keysOf (lbbuScan headers [])).Nodup := lbbuScan_nodup headers [] (by simp)
  have hkm := keysMax_lbbuScan headers
  cases hk : keysMax (lbbuScan headers []) with
  | none =>
    rw [hk] at hkm
    have hpop : popLast (lbbuScan headers []) = lbbuScan headers [] := by
      unfold popLast
      rw [hk]
    have hLnil : lbbuScan headers [] = [] := by
      have h0 : keysOf (lbbuScan headers []) = [] := (listMax_none_iff _).mp hk
      cases hcase : lbbuScan headers [] with
      | nil => rfl
      | cons p t =>
        rw [hcase] at h0
        obtain ⟨a, b⟩ := p
        simp at h0
    rw [hpop, hLnil]
    constructor
    · intro hmem
      simp at hmem
    · rintro ⟨v, vtop, hmv, -, -⟩
      rw [hmv] at hkm
      cases hkm
  | some vmax =>
    rw [hk] at hkm
    have hpop : popLast (lbbuScan headers []) =
        (lbbuScan headers []).filter fun p => !(decide (p.1 = vmax)) := by
      unfold popLast
      rw [hk]
    rw [hpop]
    constructor
    · intro hmem
      rw [List.mem_map] at hmem
      obtain ⟨p, hp, hsnd⟩ := hmem
      obtain ⟨pv, ph⟩ := p
      rw [List.mem_filter] at hp
      obtain ⟨hpL, hpne⟩ := hp
      simp only [Bool.not_eq_eq_eq_not, Bool.not_true, decide_eq_false_iff_not] at hpne
      cases hsnd
      refine ⟨pv, vmax, hkm.symm, hpne, ?_⟩
      rw [← lookupD_lbbuScan_eq_maxSwitchHeight]
      exact (mem_iff_lookupD _ hnd pv ph).mp hpL
    · rintro ⟨v, vtop, hmv, hne, hmx⟩
      have hvt : vtop = vmax := by
        rw [hmv] at hkm
        cases hkm
        rfl
      subst hvt
      have hmem : (v, hgt) ∈ lbbuScan headers [] := by
        rw [mem_iff_lookupD _ hnd, lookupD_lbbuScan_eq_maxSwitchHeight]
        exact hmx
      rw [List.mem_map]
      refine ⟨(v, hgt), ?_, rfl⟩
      rw [List.mem_filter]
      exact ⟨hmem, by simp [hne]⟩

/-- A switch-block header for the indexer fixtures. -/
def mkSwitchHeader (hgt era ver hash : Nat) : BlockHeader :=
  ⟨hgt, era, ver, true, some [(0, 100)], hash⟩

/-- The upgrade fixture of the tests: switch blocks at heights 60/180/250/300
where 60 and 180 share the first protocol version, 250 carries the second and
300 the third (and highest). -/
def upgradeFixture : List (Nat × BlockHeader) :=
  [(60, mkSwitchHeader 60 9 1 1060), (180, mkSwitchHeader 180 10 1 1180),
   (250, mkSwitchHeader 250 11 2 1250), (300, mkSwitchHeader 300 12 3 1300)]

/-- A store matching the claim's literal description: switch blocks at
heights 60/180/250/300 spanning four distinct protocol versions, the last
version's switch block at height 300. -/
def fourVersionFixture : List (Nat × BlockHeader) :=
  [(60, mkSwitchHeader 60 9 1 1060), (180, mkSwitchHeader 180 10 2 1180),
   (250, mkSwitchHeader 250 11 3 1250), (300, mkSwitchHeader 300 12 4 1300)]

/-- **C5 (counterexample)**. On a chain whose switch blocks at heights
60/180/250/300 span four *distinct* protocol versions (the last version's
switch block at height 300), `switch_blocks_before_upgrade` is
`{60, 180, 250}` — it contains 60, so the claimed result
"exactly `{180, 250}`, excluding `{60, 300}`" fails for such a fixture. -/
theorem initialize_indices_four_versions_counterexample :
    initialize_indices fourVersionFixture [] =
        .ok ⟨[], [(10, 1060), (11, 1180), (12, 1250), (13, 1300)], [60, 180, 250]⟩ ∧
      60 ∈ ([60, 180, 250] : List Nat) := by
  constructor
  · set_option maxRecDepth 10000 in rfl
  · decide

/-- **C5 (amended)**. For every scanned chain of headers,
`switch_blocks_before_upgrade` contains exactly, for each protocol version
observed among switch blocks except the highest one, the maximum height among
that version's switch blocks; in the tests' fixture — switch blocks at
heights 60/180/250/300 spanning three protocol versions (60 and 180 share
the first version, the last version's switch block at height 300) — the set
is exactly `{180, 250}`, excluding `{60, 300}`. -/
theorem initialize_indices_before_upgrade :
    (∀ (store : List (Nat × BlockHeader)) (needed : List Nat) (ind : Indices),
        initialize_indices store needed = .ok ind →
        ∀ hgt, hgt ∈ ind.switchBlocksBeforeUpgrade ↔
          lastSwitchBeforeUpgrade (scannedHeaders store) hgt) ∧
      (∀ ind : Indices, initialize_indices upgradeFixture [] = .ok ind →
        180 ∈ ind.switchBlocksBeforeUpgrade ∧ 250 ∈ ind.switchBlocksBeforeUpgrade ∧
          60 ∉ ind.switchBlocksBeforeUpgrade ∧ 300 ∉ ind.switchBlocksBeforeUpgrade ∧
          ∀ hgt ∈ ind.switchBlocksBeforeUpgrade, hgt = 180 ∨ hgt = 250) := by
  constructor
  · intro store needed ind h hgt
    simp only [initialize_indices] at h
    split at h
    · cases h
    · rename_i latest hlatest
      split at h
      · cases h
      · split at h
        · cases h
        · rename_i indices₀ lbbu hscan
          cases h
          have hlb := scanHeights_ok_lbbu _ _ _ hscan
          simp only at hlb
          have hsc : scannedHeaders store =
              List.filterMap (fun h => lookupD store h)
                ((List.range (latest.height + 1)).filter fun h =>
                  (lookupD store h).isSome) := by
            simp [scannedHeaders, hlatest]
          show hgt ∈ (popLast lbbu).map Prod.snd ↔ _
          rw [hlb, hsc]
          exact popLast_lbbu_mem _ hgt
  · intro ind h
    have hcomp : initialize_indices upgradeFixture [] =
        .ok ⟨[], [(10, 1060), (11, 1180), (12, 1250), (13, 1300)], [180, 250]⟩ := by
      set_option maxRecDepth 10000 in rfl
    rw [hcomp] at h
    cases h
    refine ⟨by decide, by decide, by decide, by decide, ?_⟩
    intro hgt hmem
    simp only [List.mem_cons, List.not_mem_nil, or_false] at hmem
    exact hmem

/-- Concrete instantiation of the amended characterization at the fixture. -/
theorem initialize_indices_before_upgrade_witness :
    180 ∈ (⟨[], [(10, 1060), (11, 1180), (12, 1250), (13, 1300)],
        [180, 250]⟩ : Indices).switchBlocksBeforeUpgrade ∧
      250 ∈ (⟨[], [(10, 1060), (11, 1180), (12, 1250), (13, 1300)],
        [180, 250]⟩ : Indices).switchBlocksBeforeUpgrade ∧
      60 ∉ (⟨[], [(10, 1060), (11, 1180), (12, 1250), (13, 1300)],
        [180, 250]⟩ : Indices).switchBlocksBeforeUpgrade ∧
      300 ∉ (⟨[], [(10, 1060), (11, 1180), (12, 1250), (13, 1300)],
        [180, 250]⟩ : Indices).switchBlocksBeforeUpgrade ∧
      ∀ hgt ∈ (⟨[], [(10, 1060), (11, 1180), (12, 1250), (13, 1300)],
        [180, 250]⟩ : Indices).switchBlocksBeforeUpgrade, hgt = 180 ∨ hgt = 250 :=
  initialize_indices_before_upgrade.2 _ (by set_option maxRecDepth 10000 in rfl)

end LmdbUtils
